import Mathlib

set_option maxRecDepth 100000

/-!
Shallow embedding of the `datatype-validators` repository: five independent
value validators (boolean, integer, float, text, URL), each a pure predicate
over a decoded JSON-like value.  Strings are embedded as `List Char`;
machine integers are `Nat`/`Int` with explicit range checks.
-/

namespace DatatypeValidators

/-- Unicode White_Space code points: model of Rust `char::is_whitespace`,
which underlies `str::trim` as used by the validators. -/
def isRustWhitespace (c : Char) : Bool :=
  decide (c.toNat = 0x09) || decide (c.toNat = 0x0A) || decide (c.toNat = 0x0B) ||
  decide (c.toNat = 0x0C) || decide (c.toNat = 0x0D) || decide (c.toNat = 0x20) ||
  decide (c.toNat = 0x85) || decide (c.toNat = 0xA0) || decide (c.toNat = 0x1680) ||
  decide (0x2000 ≤ c.toNat ∧ c.toNat ≤ 0x200A) ||
  decide (c.toNat = 0x2028) || decide (c.toNat = 0x2029) ||
  decide (c.toNat = 0x202F) || decide (c.toNat = 0x205F) || decide (c.toNat = 0x3000)

/-- Drop the leading characters satisfying `p`, then the trailing ones. -/
def trimBy (p : Char → Bool) (s : List Char) : List Char :=
  ((s.dropWhile p).reverse.dropWhile p).reverse

/-- Model of Rust `str::trim`: remove leading and trailing Unicode whitespace. -/
def rustTrim (s : List Char) : List Char := trimBy isRustWhitespace s

/-- ASCII lowercasing of a single character. -/
def asciiLowerChar (c : Char) : Char :=
  if 'A' ≤ c ∧ c ≤ 'Z' then Char.ofNat (c.toNat + 32) else c

/-- Model of Rust `str::to_lowercase`, restricted to the ASCII mappings.
The validators only compare lowercased strings against fixed ASCII token
lists; the sole non-ASCII Unicode lowercase mapping landing in ASCII is
U+212A (Kelvin sign) → `k`, and `k` occurs in none of the tokens, so the
ASCII model yields the same comparison results as full Unicode lowercasing. -/
def rustToLowercase (s : List Char) : List Char := s.map asciiLowerChar

/-- Model of `serde_json::Number`: an unsigned 64-bit integer, a negative
signed 64-bit integer, or a finite IEEE-754 double.  The double payload is
modelled by its exact rational value (every finite double is rational);
`serde_json` never stores NaN or infinite doubles. -/
inductive JNumber where
  | posInt (n : Nat)
  | negInt (i : Int)
  | float (q : ℚ)

deriving instance DecidableEq for JNumber

/-- Model of `serde_json::Value`: the decoded generic input of the
validators. -/
inductive Value where
  | null
  | bool (b : Bool)
  | num (n : JNumber)
  | str (s : List Char)
  | seq (items : List Value)
  | map (pairs : List (List Char × Value))

/-- Model of `serde_json::Number::is_i64`. -/
def JNumber.is_i64 : JNumber → Bool
  | .posInt n => decide (n ≤ 2 ^ 63 - 1)
  | .negInt _ => true
  | .float _ => false

/-- Model of `serde_json::Number::is_u64`. -/
def JNumber.is_u64 : JNumber → Bool
  | .posInt _ => true
  | .negInt _ => false
  | .float _ => false

/-- Model of `serde_json::Number::is_f64`. -/
def JNumber.is_f64 : JNumber → Bool
  | .posInt _ => false
  | .negInt _ => false
  | .float _ => true

/-- Model of `serde_json::Number::as_i64`. -/
def JNumber.as_i64 : JNumber → Option Int
  | .posInt n => if n ≤ 2 ^ 63 - 1 then some (n : Int) else none
  | .negInt i => some i
  | .float _ => none

/-- Model of `serde_json::Number::as_u64`. -/
def JNumber.as_u64 : JNumber → Option Nat
  | .posInt n => some n
  | .negInt _ => none
  | .float _ => none

/-- Model of `serde_json::Number::as_f64`, with the integer variants mapped
to their exact rational value.  The u64/i64-to-double rounding of the source
is immaterial here: in the one validator call site, `as_f64` is reached only
after `as_i64` and `as_u64` both fail, which forces the `float` variant. -/
def JNumber.as_f64 : JNumber → Option ℚ
  | .posInt n => some (n : ℚ)
  | .negInt i => some (i : ℚ)
  | .float q => some q

/-- Token vocabulary of the boolean validator. -/
def boolTokens : List (List Char) :=
  ["true".data, "false".data, "yes".data, "no".data, "on".data, "off".data,
   "1".data, "0".data, "y".data, "n".data, "t".data, "f".data]

/-- Embedding of `validate_boolean` from
`src/Boolean/boolean-validator/src/lib.rs`. -/
def validate_boolean : Value → Bool
  | .bool _ => true
  | .str s =>
      let lower := rustToLowercase (rustTrim s)
      decide (lower = "true".data ∨ lower = "false".data ∨
        lower = "yes".data ∨ lower = "no".data ∨
        lower = "on".data ∨ lower = "off".data ∨
        lower = "1".data ∨ lower = "0".data ∨
        lower = "y".data ∨ lower = "n".data ∨
        lower = "t".data ∨ lower = "f".data)
  | .num n =>
      match n.as_i64 with
      | some i => decide (i = 0 ∨ i = 1)
      | none =>
        match n.as_u64 with
        | some u => decide (u = 0 ∨ u = 1)
        | none =>
          match n.as_f64 with
          | some f => decide (f = 0 ∨ f = 1)
          | none => false
  | _ => false

/-- Decimal digit test, as in Rust `char::is_ascii_digit`. -/
def isAsciiDigit (c : Char) : Bool := decide ('0' ≤ c ∧ c ≤ '9')

/-- Numeric value of a decimal digit character. -/
def digitVal (c : Char) : Nat := c.toNat - '0'.toNat

/-- Value of a decimal digit string. -/
def natOfDigits (ds : List Char) : Nat := ds.foldl (fun a c => 10 * a + digitVal c) 0

/-- Model of the digit-run phase of Rust integer parsing: succeeds on a
nonempty all-digit string with its decimal value (the overflow check of the
source is applied by the callers as a range check on this value, which
accepts exactly the same strings). -/
def parseDigitsNat (s : List Char) : Option Nat :=
  if s.isEmpty then none
  else if s.all isAsciiDigit then some (natOfDigits s) else none

/-- Split one optional leading sign character, as Rust numeric parsing does. -/
def splitSign (s : List Char) : Bool × List Char :=
  match s with
  | [] => (false, [])
  | c :: rest =>
    if c = '-' then (true, rest)
    else if c = '+' then (false, rest)
    else (false, c :: rest)

/-- Model of Rust `i64::from_str`: optional `+`/`-` sign, then a nonempty
digit run, value within the signed 64-bit range. -/
def parseI64 (s : List Char) : Option Int :=
  match parseDigitsNat (splitSign s).2 with
  | some n =>
      if (splitSign s).1 then (if n ≤ 2 ^ 63 then some (-(n : Int)) else none)
      else (if n ≤ 2 ^ 63 - 1 then some (n : Int) else none)
  | none => none

/-- Drop one optional leading `+` (unsigned parsing accepts `+` but not `-`). -/
def dropPlus (s : List Char) : List Char :=
  match s with
  | [] => []
  | c :: rest => if c = '+' then rest else c :: rest

/-- Model of Rust `u64::from_str`: optional `+` sign, then a nonempty digit
run, value within the unsigned 64-bit range. -/
def parseU64 (s : List Char) : Option Nat :=
  match parseDigitsNat (dropPlus s) with
  | some n => if n ≤ 2 ^ 64 - 1 then some n else none
  | none => none

/-- Embedding of `validate_integer` from
`src/Number/integer-validator/src/lib.rs`. -/
def validate_integer : Value → Bool
  | .num n => n.is_i64 || n.is_u64
  | .str s =>
      let trimmed := rustTrim s
      if trimmed.isEmpty then false
      else if (parseI64 trimmed).isSome then true
      else if (parseU64 trimmed).isSome then true
      else false
  | _ => false

/-- Result of parsing a floating point literal, kept exact: a finite value
is the integer mantissa `m` together with a decimal exponent `e`, denoting
 `m * 10 ^ e`. -/
inductive FloatVal where
  | finite (m : Int) (e : Int)
  | infinite (pos : Bool)
  | nan

deriving instance DecidableEq for FloatVal

/-- Smallest positive decimal value that rounds to IEEE-754 double infinity:
the midpoint `(2 - 2 ^ (-53)) * 2 ^ 1023` between the largest finite double
and `2 ^ 1024` (the midpoint itself rounds up under round-to-nearest-even). -/
def f64OverflowBound : Nat := 2 ^ 1024 - 2 ^ 970

/-- Whether the exact decimal value `m * 10 ^ e` rounds to a finite double. -/
def decFinite (m e : Int) : Bool :=
  if 0 ≤ e then decide (m.natAbs * 10 ^ e.toNat < f64OverflowBound)
  else decide (m.natAbs < f64OverflowBound * 10 ^ (-e).toNat)

/-- Model of `f64::is_finite` on a parsed value. -/
def FloatVal.isFinite : FloatVal → Bool
  | .finite m e => decFinite m e
  | .infinite _ => false
  | .nan => false

/-- Parse the optional exponent suffix `([eE][+-]?digits)?` of a float
literal; the empty string denotes exponent zero. -/
def parseExp (s : List Char) : Option Int :=
  match s with
  | [] => some 0
  | c :: rest =>
    if c = 'e' ∨ c = 'E' then
      let sg := splitSign rest
      match parseDigitsNat sg.2 with
      | some n => some (if sg.1 then -(n : Int) else (n : Int))
      | none => none
    else none

/-- Model of Rust `f64::from_str`: optional sign, then case-insensitive
`inf`/`infinity`/`nan`, or a decimal literal `digits [. digits]` requiring at
least one digit overall, with optional `e`/`E` exponent.  The numeric value
is kept exact as mantissa and decimal exponent. -/
def parseF64 (s : List Char) : Option FloatVal :=
  let sg := splitSign s
  let low := rustToLowercase sg.2
  if low = "inf".data ∨ low = "infinity".data then some (.infinite (!sg.1))
  else if low = "nan".data then some .nan
  else
    let intDs := sg.2.takeWhile isAsciiDigit
    let r1 := sg.2.dropWhile isAsciiDigit
    let fr :=
      match r1 with
      | '.' :: t => (t.takeWhile isAsciiDigit, t.dropWhile isAsciiDigit)
      | _ => ([], r1)
    if intDs.isEmpty && fr.1.isEmpty then none
    else
      match parseExp fr.2 with
      | some e =>
          some (.finite (if sg.1 then -(natOfDigits (intDs ++ fr.1) : Int)
                         else (natOfDigits (intDs ++ fr.1) : Int))
                        (e - fr.1.length))
      | none => none

/-- Embedding of `validate_float` from
`src/Number/floatingpoint-validator/src/lib.rs`. -/
def validate_float : Value → Bool
  | .num n => n.is_f64 || n.is_i64 || n.is_u64
  | .str s =>
      let trimmed := rustTrim s
      if trimmed.isEmpty then false
      else
        let lower := rustToLowercase trimmed
        if lower = "nan".data ∨ lower = "infinity".data ∨ lower = "-infinity".data ∨
           lower = "inf".data ∨ lower = "-inf".data ∨ lower = "+inf".data then false
        else
          match parseF64 trimmed with
          | some f => f.isFinite
          | none => false
  | _ => false

/-- Model of Rust `char::is_ascii_graphic`: `!` through `~`. -/
def isAsciiGraphic (c : Char) : Bool := decide (0x21 ≤ c.toNat ∧ c.toNat ≤ 0x7E)

/-- Per-character admissibility test of the text validator. -/
def textCharOk (c : Char) : Bool :=
  isAsciiGraphic c || isRustWhitespace c ||
  (decide (0x20 ≤ c.toNat) && decide (c.toNat ≠ 0x7F))

/-- Embedding of `validate_text` from `src/Text/text-validator/src/lib.rs`. -/
def validate_text (text : List Char) : Bool :=
  if text.isEmpty then false
  else !(rustTrim text).isEmpty && text.all textCharOk

/-- Parsed URL representation: the lowercased scheme and the optional host.
An absent host is `none`; the model never stores an empty host string. -/
structure Url where
  scheme : List Char
  host : Option (List Char)

deriving instance DecidableEq for Url

/-- C0 control characters and space, the characters the WHATWG URL parser
strips from both ends of its input before parsing. -/
def isC0OrSpace (c : Char) : Bool := decide (c.toNat ≤ 0x20)

/-- Scheme-leading character: an ASCII letter. -/
def isAsciiAlpha (c : Char) : Bool :=
  decide ('a' ≤ c ∧ c ≤ 'z') || decide ('A' ≤ c ∧ c ≤ 'Z')

/-- Characters admissible after the first character of a URL scheme. -/
def isSchemeChar (c : Char) : Bool :=
  isAsciiAlpha c || isAsciiDigit c || decide (c = '+') || decide (c = '-') || decide (c = '.')

/-- Split a candidate URL into its lowercased scheme and the remainder after
the colon; fails when no well-formed `scheme:` prefix is present. -/
def splitScheme (s : List Char) : Option (List Char × List Char) :=
  match s with
  | [] => none
  | c :: _ =>
    if isAsciiAlpha c then
      match s.dropWhile isSchemeChar with
      | ':' :: r => some (rustToLowercase (s.takeWhile isSchemeChar), r)
      | _ => none
    else none

/-- Remove the userinfo prefix of an authority: everything up to and
including the last `@`. -/
def dropUserinfo (auth : List Char) : List Char :=
  if auth.contains '@' then (auth.reverse.takeWhile (fun c => !decide (c = '@'))).reverse
  else auth

/-- Remove a trailing `:port` from a host.  An IPv6 literal (leading `[`) is
kept whole; a port after the closing bracket is retained by the model, which
is harmless here because only host emptiness is ever consulted. -/
def stripPort (h : List Char) : List Char :=
  match h with
  | '[' :: _ => h
  | _ => h.takeWhile (fun c => !decide (c = ':'))

/-- Host component of an authority string: strip userinfo, then the port. -/
def hostOfAuthority (auth : List Char) : List Char := stripPort (dropUserinfo auth)

/-- WHATWG special schemes other than `file`: their URLs must carry a
nonempty host. -/
def specialSchemes : List (List Char) :=
  ["http".data, "https".data, "ws".data, "wss".data, "ftp".data]

/-- Authority terminator for special schemes (backslash included). -/
def isSpecialAuthEnd (c : Char) : Bool :=
  decide (c = '/') || decide (c = '?') || decide (c = '#') || decide (c = '\\')

/-- Authority terminator for non-special schemes. -/
def isAuthEnd (c : Char) : Bool :=
  decide (c = '/') || decide (c = '?') || decide (c = '#')

/-- Host of a special-scheme URL remainder: skip every leading slash or
backslash, take the authority up to its terminator, extract the host. -/
def specialHost (rest : List Char) : List Char :=
  hostOfAuthority
    ((rest.dropWhile (fun c => decide (c = '/') || decide (c = '\\'))).takeWhile
      (fun c => !isSpecialAuthEnd c))

/-- Host of a `file` URL authority (the part after `//`). -/
def fileHost (r : List Char) : List Char :=
  hostOfAuthority (r.takeWhile (fun c => !isSpecialAuthEnd c))

/-- Host of a non-special URL authority (the part after `//`). -/
def genericHost (r : List Char) : List Char :=
  hostOfAuthority (r.takeWhile (fun c => !isAuthEnd c))

/-- Record a host string, an empty one as absent. -/
def optHost (h : List Char) : Option (List Char) :=
  if h.isEmpty then none else some h

/-- Modelled from the spec: the repository calls `url::Url::parse` (the
`url` crate, a dependency whose code is not part of this repository), which
the spec describes as parsing "scheme + authority/path grammar per standard
URL syntax".  This model follows the WHATWG standard the crate implements:
a `scheme:` prefix is required; special schemes (http, https, ws, wss, ftp)
skip any run of slashes and then require a nonempty host; `file` takes an
optional host after exactly `//`; any other scheme takes a host only after
a literal `//`, an empty host being recorded as absent.  Percent-decoding,
IDNA and host-character validation are beyond what the claims consult and
are not modelled. -/
def parseUrlCore (t : List Char) : Option Url :=
  match splitScheme t with
  | none => none
  | some sr =>
    if sr.1 ∈ specialSchemes then
      if (specialHost sr.2).isEmpty then none
      else some ⟨sr.1, some (specialHost sr.2)⟩
    else if sr.1 = "file".data then
      match sr.2 with
      | '/' :: '/' :: r => some ⟨sr.1, optHost (fileHost r)⟩
      | _ => some ⟨sr.1, none⟩
    else
      match sr.2 with
      | '/' :: '/' :: r => some ⟨sr.1, optHost (genericHost r)⟩
      | _ => some ⟨sr.1, none⟩

/-- Characters the WHATWG parser deletes wherever they occur in the input. -/
def isUrlStripChar (c : Char) : Bool :=
  decide (c = '\t') || decide (c = '\n') || decide (c = '\x0D')

/-- Modelled from the spec: full `url::Url::parse` entry point, including
the WHATWG input preprocessing (trim C0/space at both ends, delete
tab/newline everywhere). -/
def parseUrl (s : List Char) : Option Url :=
  parseUrlCore ((trimBy isC0OrSpace s).filter (fun c => !isUrlStripChar c))

/-- Scheme allow-list of `validate_url` (the `matches!` in the source). -/
def allowSchemes : List (List Char) :=
  ["http".data, "https".data, "ftp".data, "ftps".data,
   "ws".data, "wss".data, "data".data,
   "mailto".data, "tel".data, "ssh".data, "git".data]

/-- Schemes `validate_url` exempts from the host check. -/
def noHostSchemes : List (List Char) := ["mailto".data, "tel".data, "data".data]

/-- Schemes for which `validate_url` demands a present host. -/
def hostSchemes : List (List Char) :=
  ["http".data, "https".data, "ftp".data, "ftps".data,
   "ws".data, "wss".data, "ssh".data, "git".data]

/-- Post-parse decision logic of `validate_url` from
`src/URL/url-validator/src/lib.rs`, transcribed with the
`has_valid_scheme` binding inlined. -/
def urlDecision (u : Url) : Bool :=
  if u.scheme ∈ noHostSchemes then decide (u.scheme ∈ allowSchemes)
  else if u.scheme ∈ hostSchemes then decide (u.scheme ∈ allowSchemes) && u.host.isSome
  else if u.scheme = "file".data then true
  else decide (u.scheme ∈ allowSchemes)

/-- Embedding of `validate_url` from `src/URL/url-validator/src/lib.rs`. -/
def validate_url (s : List Char) : Bool :=
  match parseUrl s with
  | some u => urlDecision u
  | none => false

/-- One invocation of one of the five validators, for reasoning about
sequences of calls. -/
inductive Call where
  | boolCall (v : Value)
  | intCall (v : Value)
  | floatCall (v : Value)
  | textCall (s : List Char)
  | urlCall (s : List Char)

/-- Result of a single call.  The source validators read no mutable or
global state (each is a plain function of its argument), so a call is a
function of the `Call` alone. -/
def evalCall : Call → Bool
  | .boolCall v => validate_boolean v
  | .intCall v => validate_integer v
  | .floatCall v => validate_float v
  | .textCall s => validate_text s
  | .urlCall s => validate_url s

/-- Execute a sequence of validator calls in order, collecting the results. -/
def runCalls : List Call → List Bool
  | [] => []
  | c :: rest => evalCall c :: runCalls rest

/-- Claim-side trimming predicate of C4: exactly space, tab, newline and
carriage return, following the claim's words. -/
def isClaimWhitespaceFour (c : Char) : Bool :=
  decide (c = ' ') || decide (c = '\t') || decide (c = '\n') || decide (c = '\r')

/-- Claim-side trim of C4: remove exactly leading/trailing space, tab,
newline and carriage return. -/
def specTrimFour (s : List Char) : List Char := trimBy isClaimWhitespaceFour s

/-- Claim-side token list rejected outright by the float validator. -/
def floatRejectTokens : List (List Char) :=
  ["nan".data, "infinity".data, "-infinity".data, "inf".data, "-inf".data, "+inf".data]

/-- Claim-side description of a decimal digit string. -/
def decimalDigits (ds : List Char) : Prop :=
  ds ≠ [] ∧ ∀ c ∈ ds, isAsciiDigit c = true

/-- Claim-side statement that a string is, in its entirety, a signed 64-bit
integer literal: an optional leading `+` or `-`, then decimal digits (leading
zeros allowed), with the value inside the signed 64-bit range. -/
def specSigned64 (t : List Char) : Prop :=
  (∃ ds, decimalDigits ds ∧ (t = ds ∨ t = '+' :: ds) ∧ natOfDigits ds ≤ 2 ^ 63 - 1) ∨
  (∃ ds, decimalDigits ds ∧ t = '-' :: ds ∧ natOfDigits ds ≤ 2 ^ 63)

/-- Claim-side statement that a string is, in its entirety, an unsigned
64-bit integer literal: an optional leading `+`, then decimal digits, with
the value inside the unsigned 64-bit range. -/
def specUnsigned64 (t : List Char) : Prop :=
  ∃ ds, decimalDigits ds ∧ (t = ds ∨ t = '+' :: ds) ∧ natOfDigits ds ≤ 2 ^ 64 - 1

/-! Helper lemmas about trimming. -/

theorem forall_mem_dropWhile_iff (p : Char → Bool) (s : List Char) :
    (∀ c ∈ s.dropWhile p, p c = true) ↔ (∀ c ∈ s, p c = true) := by
  constructor
  · intro h c hc
    rw [← List.takeWhile_append_dropWhile p s] at hc
    rcases List.mem_append.mp hc with h1 | h2
    · exact List.mem_takeWhile_imp h1
    · exact h c h2
  · intro h c hc
    refine h c ?_
    rw [← List.takeWhile_append_dropWhile p s]
    exact List.mem_append_right _ hc

theorem trimBy_eq_nil_iff (p : Char → Bool) (s : List Char) :
    trimBy p s = [] ↔ ∀ c ∈ s, p c = true := by
  unfold trimBy
  rw [List.reverse_eq_nil_iff, List.dropWhile_eq_nil_iff]
  constructor
  · intro h
    rw [← forall_mem_dropWhile_iff p s]
    intro c hc
    exact h c (List.mem_reverse.mpr hc)
  · intro h c hc
    exact (forall_mem_dropWhile_iff p s).mpr h c (List.mem_reverse.mp hc)

theorem trimBy_append_left (p : Char → Bool) (q s : List Char)
    (hq : ∀ c ∈ q, p c = true) : trimBy p (q ++ s) = trimBy p s := by
  unfold trimBy
  rw [List.dropWhile_append_of_pos hq]

theorem trimBy_append_right (p : Char → Bool) (s q : List Char)
    (hq : ∀ c ∈ q, p c = true) : trimBy p (s ++ q) = trimBy p s := by
  unfold trimBy
  rw [List.dropWhile_append]
  by_cases h : (s.dropWhile p).isEmpty
  · rw [if_pos h]
    have hq0 : q.dropWhile p = [] := List.dropWhile_eq_nil_iff.mpr hq
    have hs0 : s.dropWhile p = [] := List.isEmpty_iff.mp h
    rw [hq0, hs0]
  · rw [if_neg h, List.reverse_append,
      List.dropWhile_append_of_pos (fun c hc => hq c (List.mem_reverse.mp hc))]

/-! Claim theorems. -/

/-- Claim C9: the float validator accepts every `Number` variant unconditionally —
each of the three representations (unsigned 64-bit, signed 64-bit, finite
double) satisfies the `is_f64 || is_i64 || is_u64` test. -/
theorem float_accepts_every_number (n : JNumber) :
    validate_float (.num n) = true := by
  cases n <;> simp [validate_float, JNumber.is_f64, JNumber.is_i64, JNumber.is_u64]

/-- Claim C8: validators are deterministic and pure.  In a run of any sequence of
validator calls, the result of each call is a function of that call alone —
unchanged by the calls before or after it — and a call repeated at two
positions of a run yields the same result at both. -/
theorem validators_pure_in_call_sequences :
    (∀ pre c post, runCalls (pre ++ c :: post) =
        runCalls pre ++ evalCall c :: runCalls post) ∧
    (∀ pre c mid post, runCalls (pre ++ c :: (mid ++ c :: post)) =
        runCalls pre ++ evalCall c :: (runCalls mid ++ evalCall c :: runCalls post)) := by
  have key : ∀ pre c post, runCalls (pre ++ c :: post) =
      runCalls pre ++ evalCall c :: runCalls post := by
    intro pre c post
    induction pre with
    | nil => rfl
    | cons d ds ih => simp [runCalls, ih]
  refine ⟨key, fun pre c mid post => ?_⟩
  rw [key, key]

/-- Claim C7: every validator is a total boolean function in the embedding, and
every internal parse failure or non-matching variant folds into `false`: a
failed URL parse, a failed float parse, a failed signed and unsigned integer
parse, and the `Null`/`Sequence`/`Mapping` variants all yield `false`. -/
theorem validators_total_parse_failures_false :
    (∀ s, parseUrl s = none → validate_url s = false) ∧
    (∀ s, parseF64 (rustTrim s) = none → validate_float (.str s) = false) ∧
    (∀ s, parseI64 (rustTrim s) = none → parseU64 (rustTrim s) = none →
        validate_integer (.str s) = false) ∧
    (validate_boolean .null = false ∧ validate_integer .null = false ∧
      validate_float .null = false ∧ validate_url [] = false) ∧
    (∀ items, validate_boolean (.seq items) = false ∧
      validate_integer (.seq items) = false ∧ validate_float (.seq items) = false) ∧
    (∀ pairs, validate_boolean (.map pairs) = false ∧
      validate_integer (.map pairs) = false ∧ validate_float (.map pairs) = false) := by
  refine ⟨fun s h => ?_, fun s h => ?_, fun s h1 h2 => ?_,
    ⟨rfl, rfl, rfl, by decide⟩, fun items => ⟨rfl, rfl, rfl⟩, fun pairs => ⟨rfl, rfl, rfl⟩⟩
  · simp [validate_url, h]
  · simp only [validate_float]
    split_ifs with h1 h2
    · rfl
    · rfl
    · rw [h]
  · simp only [validate_integer]
    split_ifs with h3 h4 h5
    · rfl
    · rw [h1] at h4
      exact absurd h4 (by simp)
    · rw [h2] at h5
      exact absurd h5 (by simp)
    · rfl

/-- Closed instantiation of the parse-failure clauses of C7. -/
theorem validators_total_parse_failures_false_witness :
    validate_url "not a url".data = false ∧
    validate_float (.str "12abc".data) = false ∧
    validate_integer (.str "12.34.56".data) = false :=
  ⟨validators_total_parse_failures_false.1 _ (by decide),
   validators_total_parse_failures_false.2.1 _ (by decide),
   validators_total_parse_failures_false.2.2.1 _ (by decide) (by decide)⟩

/-- Claim C4 counterexample: the boolean validator trims every Unicode whitespace
character, not only space, tab, newline and carriage return.  A string
prefixed with a vertical tab (U+000B) is accepted by the code, while the
claim's four-character trim leaves the vertical tab in place, so the
claim's right-hand side is false. -/
theorem boolean_trim_four_counterexample :
    validate_boolean (.str ('\x0B' :: "true".data)) = true ∧
    rustToLowercase (specTrimFour ('\x0B' :: "true".data)) ∉ boolTokens := by
  decide

/-- Claim C4 amended: the boolean string validator accepts exactly the strings
whose trim — removing any leading/trailing Unicode whitespace — lowercases
to one of the twelve tokens; internal whitespace is not stripped, so a token
broken by an inner space is rejected. -/
theorem boolean_string_tokens :
    (∀ s, validate_boolean (.str s) = true ↔
      rustToLowercase (rustTrim s) ∈ boolTokens) ∧
    validate_boolean (.str "  Yes  ".data) = true ∧
    validate_boolean (.str "t rue".data) = false := by
  refine ⟨fun s => ?_, by decide, by decide⟩
  simp only [validate_boolean, boolTokens, List.mem_cons, List.not_mem_nil,
    or_false, decide_eq_true_eq]

/-- Claim C6: the text validator rejects the empty string and any all-whitespace
string, and otherwise accepts exactly the strings all of whose characters
are printable ASCII, whitespace, or of code point at least 0x20 and not
0x7F; in particular a raw C0 control character such as 0x01 is rejected. -/
theorem text_validator_spec :
    (∀ t, validate_text t = true ↔
      (¬ (∀ c ∈ t, isRustWhitespace c = true) ∧ ∀ c ∈ t, textCharOk c = true)) ∧
    validate_text "".data = false ∧
    validate_text "   ".data = false ∧
    validate_text "Hello, World!".data = true ∧
    validate_text ("a".data ++ ['\x01']) = false := by
  refine ⟨fun t => ?_, by decide, by decide, by decide, by decide⟩
  by_cases he : t.isEmpty
  · have ht : t = [] := List.isEmpty_iff.mp he
    subst ht
    simp [validate_text]
  · have ht : t ≠ [] := by
      intro h
      rw [h] at he
      exact he rfl
    simp only [validate_text, if_neg he, Bool.and_eq_true, Bool.not_eq_true',
      List.all_eq_true]
    constructor
    · rintro ⟨h1, h2⟩
      refine ⟨fun hall => ?_, h2⟩
      have : rustTrim t = [] := (trimBy_eq_nil_iff isRustWhitespace t).mpr hall
      rw [this] at h1
      exact absurd h1 (by decide)
    · rintro ⟨h1, h2⟩
      refine ⟨?_, h2⟩
      rcases hh : (rustTrim t).isEmpty with _ | _
      · rfl
      · have : rustTrim t = [] := List.isEmpty_iff.mp hh
        exact absurd ((trimBy_eq_nil_iff isRustWhitespace t).mp this) h1

theorem parseDigitsNat_some_of (s : List Char) (h : decimalDigits s) :
    parseDigitsNat s = some (natOfDigits s) := by
  have h1 := h.1
  have h2 := h.2
  have hne : ¬ (s.isEmpty = true) := fun hc => h1 (List.isEmpty_iff.mp hc)
  unfold parseDigitsNat
  rw [if_neg hne, if_pos (List.all_eq_true.mpr h2)]

theorem parseDigitsNat_inv (s : List Char) (n : Nat)
    (h : parseDigitsNat s = some n) : decimalDigits s ∧ natOfDigits s = n := by
  unfold parseDigitsNat at h
  split_ifs at h with h1 h2
  exact ⟨⟨fun hnil => h1 (by rw [hnil]; rfl), List.all_eq_true.mp h2⟩, Option.some.inj h⟩

theorem digit_ne_sign (c : Char) (h : isAsciiDigit c = true) : c ≠ '-' ∧ c ≠ '+' := by
  constructor <;> intro he <;> subst he <;> exact absurd h (by decide)

theorem parseI64_isSome_iff (t : List Char) :
    (parseI64 t).isSome = true ↔ specSigned64 t := by
  unfold specSigned64
  cases t with
  | nil =>
    constructor
    · intro h
      exact absurd h (by decide)
    · intro hsp
      rcases hsp with ⟨ds, hdd, heq | heq, _⟩ | ⟨ds, hdd, heq, _⟩
      · exact absurd heq.symm hdd.1
      · exact List.noConfusion heq
      · exact List.noConfusion heq
  | cons c r =>
    by_cases hm : c = '-'
    · subst hm
      have hsp0 : splitSign ('-' :: r) = (true, r) := by simp [splitSign]
      cases hd : parseDigitsNat r with
      | none =>
        have he : parseI64 ('-' :: r) = none := by
          simp [parseI64, hsp0, hd]
        rw [he]
        constructor
        · intro h
          exact absurd h (by decide)
        · intro hsp
          rcases hsp with ⟨ds, hdd, heq | heq, _⟩ | ⟨ds, hdd, heq, _⟩
          · exact absurd (hdd.2 '-' (heq ▸ List.mem_cons_self '-' r)) (by decide)
          · injection heq with h1 _
            exact absurd h1 (by decide)
          · injection heq with _ h2
            rw [h2] at hd
            rw [parseDigitsNat_some_of ds hdd] at hd
            exact Option.noConfusion hd
      | some n =>
        obtain ⟨hdd0, hval0⟩ := parseDigitsNat_inv r n hd
        have he : parseI64 ('-' :: r) = if n ≤ 2 ^ 63 then some (-(n : Int)) else none := by
          simp [parseI64, hsp0, hd]
        by_cases hle : n ≤ 2 ^ 63
        · rw [he, if_pos hle]
          constructor
          · intro _
            exact Or.inr ⟨r, hdd0, rfl, by rw [hval0]; exact hle⟩
          · intro _
            rfl
        · rw [he, if_neg hle]
          constructor
          · intro h
            exact absurd h (by decide)
          · intro hsp
            rcases hsp with ⟨ds, hdd, heq | heq, _⟩ | ⟨ds, hdd, heq, hle2⟩
            · exact absurd (hdd.2 '-' (heq ▸ List.mem_cons_self '-' r)) (by decide)
            · injection heq with h1 _
              exact absurd h1 (by decide)
            · injection heq with _ h2
              rw [← h2] at hle2
              rw [hval0] at hle2
              exact absurd hle2 hle
    · by_cases hp : c = '+'
      · subst hp
        have hsp0 : splitSign ('+' :: r) = (false, r) := by simp [splitSign]
        cases hd : parseDigitsNat r with
        | none =>
          have he : parseI64 ('+' :: r) = none := by
            simp [parseI64, hsp0, hd]
          rw [he]
          constructor
          · intro h
            exact absurd h (by decide)
          · intro hsp
            rcases hsp with ⟨ds, hdd, heq | heq, _⟩ | ⟨ds, hdd, heq, _⟩
            · exact absurd (hdd.2 '+' (heq ▸ List.mem_cons_self '+' r)) (by decide)
            · injection heq with _ h2
              rw [h2] at hd
              rw [parseDigitsNat_some_of ds hdd] at hd
              exact Option.noConfusion hd
            · injection heq with h1 _
              exact absurd h1 (by decide)
        | some n =>
          obtain ⟨hdd0, hval0⟩ := parseDigitsNat_inv r n hd
          have he : parseI64 ('+' :: r) = if n ≤ 2 ^ 63 - 1 then some (n : Int) else none := by
            simp [parseI64, hsp0, hd]
          by_cases hle : n ≤ 2 ^ 63 - 1
          · rw [he, if_pos hle]
            constructor
            · intro _
              exact Or.inl ⟨r, hdd0, Or.inr rfl, by rw [hval0]; exact hle⟩
            · intro _
              rfl
          · rw [he, if_neg hle]
            constructor
            · intro h
              exact absurd h (by decide)
            · intro hsp
              rcases hsp with ⟨ds, hdd, heq | heq, hle2⟩ | ⟨ds, hdd, heq, _⟩
              · exact absurd (hdd.2 '+' (heq ▸ List.mem_cons_self '+' r)) (by decide)
              · injection heq with _ h2
                rw [← h2] at hle2
                rw [hval0] at hle2
                exact absurd hle2 hle
              · injection heq with h1 _
                exact absurd h1 (by decide)
      · have hsp0 : splitSign (c :: r) = (false, c :: r) := by
          simp [splitSign, hm, hp]
        cases hd : parseDigitsNat (c :: r) with
        | none =>
          have he : parseI64 (c :: r) = none := by
            simp [parseI64, hsp0, hd]
          rw [he]
          constructor
          · intro h
            exact absurd h (by decide)
          · intro hsp
            rcases hsp with ⟨ds, hdd, heq | heq, _⟩ | ⟨ds, hdd, heq, _⟩
            · rw [heq] at hd
              rw [parseDigitsNat_some_of ds hdd] at hd
              exact Option.noConfusion hd
            · injection heq with h1 _
              exact absurd h1 hp
            · injection heq with h1 _
              exact absurd h1 hm
        | some n =>
          obtain ⟨hdd0, hval0⟩ := parseDigitsNat_inv (c :: r) n hd
          have he : parseI64 (c :: r) = if n ≤ 2 ^ 63 - 1 then some (n : Int) else none := by
            simp [parseI64, hsp0, hd]
          by_cases hle : n ≤ 2 ^ 63 - 1
          · rw [he, if_pos hle]
            constructor
            · intro _
              exact Or.inl ⟨c :: r, hdd0, Or.inl rfl, by rw [hval0]; exact hle⟩
            · intro _
              rfl
          · rw [he, if_neg hle]
            constructor
            · intro h
              exact absurd h (by decide)
            · intro hsp
              rcases hsp with ⟨ds, hdd, heq | heq, hle2⟩ | ⟨ds, hdd, heq, _⟩
              · rw [heq] at hd
                rw [parseDigitsNat_some_of ds hdd] at hd
                rw [Option.some.inj hd] at hle2
                exact absurd hle2 hle
              · injection heq with h1 _
                exact absurd h1 hp
              · injection heq with h1 _
                exact absurd h1 hm

theorem parseU64_isSome_iff (t : List Char) :
    (parseU64 t).isSome = true ↔ specUnsigned64 t := by
  unfold specUnsigned64
  cases t with
  | nil =>
    constructor
    · intro h
      exact absurd h (by decide)
    · intro hsp
      rcases hsp with ⟨ds, hdd, heq | heq, _⟩
      · exact absurd heq.symm hdd.1
      · exact List.noConfusion heq
  | cons c r =>
    by_cases hp : c = '+'
    · subst hp
      have hdp : dropPlus ('+' :: r) = r := by simp [dropPlus]
      cases hd : parseDigitsNat r with
      | none =>
        have he : parseU64 ('+' :: r) = none := by
          simp [parseU64, hdp, hd]
        rw [he]
        constructor
        · intro h
          exact absurd h (by decide)
        · intro hsp
          rcases hsp with ⟨ds, hdd, heq | heq, _⟩
          · exact absurd (hdd.2 '+' (heq ▸ List.mem_cons_self '+' r)) (by decide)
          · injection heq with _ h2
            rw [h2] at hd
            rw [parseDigitsNat_some_of ds hdd] at hd
            exact Option.noConfusion hd
      | some n =>
        obtain ⟨hdd0, hval0⟩ := parseDigitsNat_inv r n hd
        have he : parseU64 ('+' :: r) = if n ≤ 2 ^ 64 - 1 then some n else none := by
          simp [parseU64, hdp, hd]
        by_cases hle : n ≤ 2 ^ 64 - 1
        · rw [he, if_pos hle]
          constructor
          · intro _
            exact ⟨r, hdd0, Or.inr rfl, by rw [hval0]; exact hle⟩
          · intro _
            rfl
        · rw [he, if_neg hle]
          constructor
          · intro h
            exact absurd h (by decide)
          · intro hsp
            rcases hsp with ⟨ds, hdd, heq | heq, hle2⟩
            · exact absurd (hdd.2 '+' (heq ▸ List.mem_cons_self '+' r)) (by decide)
            · injection heq with _ h2
              rw [← h2] at hle2
              rw [hval0] at hle2
              exact absurd hle2 hle
    · have hdp : dropPlus (c :: r) = c :: r := by simp [dropPlus, hp]
      cases hd : parseDigitsNat (c :: r) with
      | none =>
        have he : parseU64 (c :: r) = none := by
          simp [parseU64, hdp, hd]
        rw [he]
        constructor
        · intro h
          exact absurd h (by decide)
        · intro hsp
          rcases hsp with ⟨ds, hdd, heq | heq, _⟩
          · rw [heq] at hd
            rw [parseDigitsNat_some_of ds hdd] at hd
            exact Option.noConfusion hd
          · injection heq with h1 _
            exact absurd h1 hp
      | some n =>
        obtain ⟨hdd0, hval0⟩ := parseDigitsNat_inv (c :: r) n hd
        have he : parseU64 (c :: r) = if n ≤ 2 ^ 64 - 1 then some n else none := by
          simp [parseU64, hdp, hd]
        by_cases hle : n ≤ 2 ^ 64 - 1
        · rw [he, if_pos hle]
          constructor
          · intro _
            exact ⟨c :: r, hdd0, Or.inl rfl, by rw [hval0]; exact hle⟩
          · intro _
            rfl
        · rw [he, if_neg hle]
          constructor
          · intro h
            exact absurd h (by decide)
          · intro hsp
            rcases hsp with ⟨ds, hdd, heq | heq, hle2⟩
            · rw [heq] at hd
              rw [parseDigitsNat_some_of ds hdd] at hd
              rw [Option.some.inj hd] at hle2
              exact absurd hle2 hle
            · injection heq with h1 _
              exact absurd h1 hp

/-- Claim C3: the integer validator on a string trims whitespace, rejects the
empty result, and otherwise accepts exactly the strings that are in full a
signed or unsigned 64-bit integer literal; a leading `+` and leading zeros
are accepted, double or trailing signs are rejected. -/
theorem integer_string_spec :
    (∀ s, validate_integer (.str s) = true ↔
      (rustTrim s ≠ [] ∧ (specSigned64 (rustTrim s) ∨ specUnsigned64 (rustTrim s)))) ∧
    validate_integer (.str "0123".data) = true ∧
    validate_integer (.str "+42".data) = true ∧
    validate_integer (.str "--42".data) = false ∧
    validate_integer (.str "42-".data) = false ∧
    validate_integer (.str "9223372036854775807".data) = true := by
  refine ⟨fun s => ?_, by decide, by decide, by decide, by decide, by decide⟩
  simp only [validate_integer]
  split_ifs with h1 h2 h3
  · constructor
    · intro h
      simp at h
    · rintro ⟨hne, _⟩
      exact hne (List.isEmpty_iff.mp h1)
  · constructor
    · intro _
      refine ⟨fun hnil => h1 (by rw [hnil]; rfl), Or.inl ((parseI64_isSome_iff _).mp h2)⟩
    · intro _
      rfl
  · constructor
    · intro _
      refine ⟨fun hnil => h1 (by rw [hnil]; rfl), Or.inr ((parseU64_isSome_iff _).mp h3)⟩
    · intro _
      rfl
  · constructor
    · intro h
      simp at h
    · rintro ⟨hne, hspec | hspec⟩
      · exact h2 ((parseI64_isSome_iff _).mpr hspec)
      · exact h3 ((parseU64_isSome_iff _).mpr hspec)

/-- Claim C1: the float validator on a string trims whitespace, rejects the
empty result, rejects outright the six lowercased special tokens
(nan, infinity, -infinity, inf, -inf, +inf), and otherwise accepts exactly
the strings that parse in full as a 64-bit float literal whose value is
finite. -/
theorem float_string_spec :
    (∀ s, validate_float (.str s) = true ↔
      (rustTrim s ≠ [] ∧ rustToLowercase (rustTrim s) ∉ floatRejectTokens ∧
        ∃ f, parseF64 (rustTrim s) = some f ∧ f.isFinite = true)) ∧
    validate_float (.str "NaN".data) = false ∧
    validate_float (.str "1e308".data) = true ∧
    validate_float (.str ".5".data) = true ∧
    validate_float (.str "3.14.159".data) = false := by
  refine ⟨fun s => ?_, by decide, by decide, by decide, by decide⟩
  simp only [validate_float]
  split_ifs with h1 h2
  · constructor
    · intro h
      exact absurd h (by decide)
    · rintro ⟨hne, _, _⟩
      exact hne (List.isEmpty_iff.mp h1)
  · constructor
    · intro h
      exact absurd h (by decide)
    · rintro ⟨_, hnot, _⟩
      apply hnot
      simp only [floatRejectTokens, List.mem_cons, List.not_mem_nil, or_false]
      exact h2
  · have hne : rustTrim s ≠ [] := fun hc => h1 (by rw [hc]; rfl)
    have hnt : rustToLowercase (rustTrim s) ∉ floatRejectTokens := by
      simp only [floatRejectTokens, List.mem_cons, List.not_mem_nil, or_false]
      exact h2
    cases hp : parseF64 (rustTrim s) with
    | none =>
      constructor
      · intro h
        exact absurd h (by decide)
      · rintro ⟨_, _, f, hf, _⟩
        exact Option.noConfusion hf
    | some f =>
      constructor
      · intro h
        exact ⟨hne, hnt, f, rfl, h⟩
      · rintro ⟨_, _, g, hg, hfin⟩
        exact (Option.some.inj hg).symm ▸ hfin

theorem optHost_ne_nil (h : List Char) (hs : List Char)
    (hc : optHost h = some hs) : hs ≠ [] := by
  unfold optHost at hc
  split_ifs at hc with h1
  intro hnil
  exact h1 (by rw [Option.some.inj hc, hnil]; rfl)

theorem parseUrlCore_host_ne_nil (t : List Char) (u : Url)
    (hp : parseUrlCore t = some u) (h : List Char) (hh : u.host = some h) :
    h ≠ [] := by
  unfold parseUrlCore at hp
  split at hp
  · exact Option.noConfusion hp
  · rename_i sr hsc
    by_cases hA : sr.1 ∈ specialSchemes
    · rw [if_pos hA] at hp
      by_cases hE : (specialHost sr.2).isEmpty
      · rw [if_pos hE] at hp
        exact Option.noConfusion hp
      · rw [if_neg hE] at hp
        rw [← Option.some.inj hp] at hh
        intro hnil
        exact hE (by rw [Option.some.inj hh, hnil]; rfl)
    · rw [if_neg hA] at hp
      by_cases hF : sr.1 = "file".data
      · rw [if_pos hF] at hp
        split at hp
        · rw [← Option.some.inj hp] at hh
          exact optHost_ne_nil _ h hh
        · rw [← Option.some.inj hp] at hh
          exact Option.noConfusion hh
      · rw [if_neg hF] at hp
        split at hp
        · rw [← Option.some.inj hp] at hh
          exact optHost_ne_nil _ h hh
        · rw [← Option.some.inj hp] at hh
          exact Option.noConfusion hh

theorem parseUrl_host_ne_nil (s : List Char) (u : Url)
    (hp : parseUrl s = some u) (h : List Char) (hh : u.host = some h) :
    h ≠ [] :=
  parseUrlCore_host_ne_nil _ u hp h hh

theorem urlDecision_hostScheme (u : Url) (h : u.scheme ∈ hostSchemes) :
    urlDecision u = u.host.isSome := by
  obtain ⟨sch, host⟩ := u
  simp only [hostSchemes, List.mem_cons, List.not_mem_nil, or_false] at h
  unfold urlDecision
  dsimp only
  rcases h with h | h | h | h | h | h | h | h <;> subst h <;>
    rw [if_neg (by decide), if_pos (by decide), decide_eq_true (by decide), Bool.true_and]

theorem noHost_subset_allow : ∀ x ∈ noHostSchemes, x ∈ allowSchemes := by decide

theorem hostS_subset_allow : ∀ x ∈ hostSchemes, x ∈ allowSchemes := by decide

/-- Claim C2: for a string that parses as a URL with one of the schemes
http, https, ftp, ftps, ws, wss, ssh, git, the URL validator accepts
exactly when the parsed URL carries a nonempty host; a host-less
`http://` or `ftp://` is rejected. -/
theorem url_host_schemes_spec :
    (∀ s u, parseUrl s = some u → u.scheme ∈ hostSchemes →
      (validate_url s = true ↔ ∃ h, u.host = some h ∧ h ≠ [])) ∧
    validate_url "ftp://files.example.com".data = true ∧
    validate_url "http://".data = false ∧
    validate_url "ftp://".data = false := by
  refine ⟨fun s u hp hsch => ?_, by decide, by decide, by decide⟩
  have hv : validate_url s = urlDecision u := by
    unfold validate_url
    rw [hp]
  rw [hv, urlDecision_hostScheme u hsch]
  constructor
  · intro hsome
    rcases Option.isSome_iff_exists.mp hsome with ⟨h, hh⟩
    exact ⟨h, hh, parseUrl_host_ne_nil s u hp h hh⟩
  · rintro ⟨h, hh, _⟩
    rw [hh]
    rfl

/-- Closed instantiation of the universal clause of claim C2. -/
theorem url_host_schemes_spec_witness :
    validate_url "ftp://files.example.com".data = true :=
  (url_host_schemes_spec.1 _ ⟨"ftp".data, some "files.example.com".data⟩
      (by decide) (by decide)).mpr
    ⟨"files.example.com".data, rfl, by decide⟩

/-- Claim C5: a parsed URL with scheme mailto, tel or data is accepted with
no host requirement, a parsed `file` URL is always accepted, and a parsed
URL with any scheme outside the twelve-scheme allow-list is rejected. -/
theorem url_scheme_groups_spec :
    (∀ s u, parseUrl s = some u →
      ((u.scheme ∈ noHostSchemes → validate_url s = true) ∧
       (u.scheme = "file".data → validate_url s = true) ∧
       (u.scheme ∉ allowSchemes ++ ["file".data] → validate_url s = false))) ∧
    validate_url "mailto:user@example.com".data = true ∧
    validate_url "tel:+1234567890".data = true ∧
    validate_url "data:text/plain,Hello%20World".data = true ∧
    validate_url "file:///home/x".data = true ∧
    validate_url "xyz://example.com".data = false := by
  refine ⟨fun s u hp => ?_, by decide, by decide, by decide, by decide, by decide⟩
  have hv : validate_url s = urlDecision u := by
    unfold validate_url
    rw [hp]
  obtain ⟨sch, host⟩ := u
  refine ⟨fun hno => ?_, fun hf => ?_, fun hother => ?_⟩
  · rw [hv]
    simp only [noHostSchemes, List.mem_cons, List.not_mem_nil, or_false] at hno
    unfold urlDecision
    dsimp only
    rcases hno with h | h | h <;> subst h <;> rw [if_pos (by decide)] <;> decide
  · rw [hv]
    have hf2 : sch = "file".data := hf
    subst hf2
    unfold urlDecision
    dsimp only
    rw [if_neg (by decide), if_neg (by decide), if_pos (by decide)]
  · rw [hv]
    have hnA : ¬ (sch ∈ allowSchemes) :=
      fun hmem => hother (List.mem_append_left _ hmem)
    have hnF : ¬ (sch = "file".data) :=
      fun heq => hother (List.mem_append_right _ (by rw [heq]; exact List.mem_cons_self _ _))
    have hnN : ¬ (sch ∈ noHostSchemes) := fun hmem => hnA (noHost_subset_allow sch hmem)
    have hnH : ¬ (sch ∈ hostSchemes) := fun hmem => hnA (hostS_subset_allow sch hmem)
    unfold urlDecision
    dsimp only
    rw [if_neg hnN, if_neg hnH, if_neg hnF, decide_eq_false hnA]

/-- Closed instantiation of the universal clause of claim C5. -/
theorem url_scheme_groups_spec_witness :
    validate_url "mailto:user@example.com".data = true ∧
    validate_url "xyz://example.com".data = false :=
  ⟨(url_scheme_groups_spec.1 _ ⟨"mailto".data, none⟩ (by decide)).1 (by decide),
   (url_scheme_groups_spec.1 _ ⟨"xyz".data, some "example.com".data⟩ (by decide)).2.2
     (by decide)⟩

/-- Claim C10: the URL validator is invariant under leading and trailing
padding made of ASCII space or C0 control characters, because URL parsing
strips those characters from both ends of its input before parsing. -/
theorem url_padding_invariant (p1 s p2 : List Char)
    (h1 : ∀ c ∈ p1, isC0OrSpace c = true) (h2 : ∀ c ∈ p2, isC0OrSpace c = true) :
    validate_url (p1 ++ s ++ p2) = validate_url s := by
  unfold validate_url parseUrl
  rw [show p1 ++ s ++ p2 = p1 ++ (s ++ p2) from by rw [List.append_assoc]]
  rw [trimBy_append_left _ _ _ h1, trimBy_append_right _ _ _ h2]

/-- Closed instantiation of claim C10 at a padded `http` URL. -/
theorem url_padding_invariant_witness :
    validate_url ([' '] ++ "http://example.com".data ++ ['\x00', '\t']) =
      validate_url "http://example.com".data ∧
    validate_url "http://example.com".data = true :=
  ⟨url_padding_invariant [' '] _ ['\x00', '\t'] (by decide) (by decide), by decide⟩

end DatatypeValidators
